import Mathlib

/-!
Verification of the rate-compaction core of the `py-reserve-sdk` repository
(`reserve_sdk/contract.py`).

The shallow embedding below translates the pure arithmetic and list/dict
manipulation of the source into Lean:

* Python numbers (rates may be floats such as `98.7` or wei integers) are
  modelled as exact rationals `ℚ`; the `int(...)` conversion, which truncates
  toward zero, is modelled by `truncQ`.
* Python dicts (which preserve insertion order) are modelled as association
  lists, with new keys appended at the end and existing keys updated in place.
* Chain reads (`getCompactData`, `getBasicRate`) are modelled as oracle
  functions returning `Except ε _`; a raised Python exception corresponds to
  an `.error` result, which propagates exactly as the first exception raised
  in evaluation order does in the source (`dict` comprehension order, and
  `concurrent.futures.Executor.map`, which re-raises pending exceptions in
  input order when its result iterator is consumed).
* The single transaction submitted by `set_rates` is reified as a
  `Transaction` value carrying exactly the arguments the source passes to the
  contract function (`setBaseRate` / `setCompactData`).
-/

/-- `TokenIndex` namedtuple: position of a token in the contract compact data
(`array_idx`, `field_idx`). -/
structure TokenIndex where
  array_idx : ℕ
  field_idx : ℕ
deriving DecidableEq

/-- `CompactData` namedtuple: new base rate together with the compact value
(difference between rate and base in bps, encoded as an unsigned byte). -/
structure CompactData where
  base : ℚ
  compact : ℤ
deriving DecidableEq

/-- Model of Python `int(q)` for a real number modelled as a rational:
truncation toward zero. -/
def truncQ (q : ℚ) : ℤ :=
  if q.num < 0 then -((q.num.natAbs / q.den : ℕ) : ℤ) else ((q.num.natAbs / q.den : ℕ) : ℤ)

/-- `get_compact_data(rate, base)` from `reserve_sdk/contract.py`:
calculate compact data from the new rate and the current base rate. -/
def get_compact_data (rate base : ℚ) : CompactData :=
  if base = 0 then
    ⟨rate, 0⟩
  else
    let compact := truncQ ((rate / base - 1) * 1000)
    if compact ≤ -128 ∨ compact ≥ 127 then  -- not fit in a byte
      ⟨rate, 0⟩
    else
      -- handle negative value to convert to byte
      if compact < 0 then ⟨base, compact + 256⟩ else ⟨base, compact⟩

/-- The dict returned by `ConversionRatesContract.build_price` (token address,
base buy/sell, compact buy/sell, `base_changed` flag). Token addresses are
modelled as natural numbers. -/
structure PriceUpdate where
  token : ℕ
  base_buy : ℚ
  base_sell : ℚ
  compact_buy : ℤ
  compact_sell : ℤ
  base_changed : Bool
deriving DecidableEq

/-- `ConversionRatesContract.build_price(token, buy, sell)`, with the two
chain reads `get_basic_rate(token, True/False)` supplied as the arguments
`bb` / `bs`. -/
def build_price (token : ℕ) (buy sell bb bs : ℚ) : PriceUpdate :=
  let compact_buy := get_compact_data buy bb
  let compact_sell := get_compact_data sell bs
  { token := token
    base_buy := compact_buy.base
    base_sell := compact_sell.base
    compact_buy := compact_buy.compact
    compact_sell := compact_sell.compact
    base_changed := decide (compact_buy.base ≠ bb ∨ compact_sell.base ≠ bs) }

/-- One value of the `result` dict of `build_compact_price`: the pair of
14-entry buy/sell arrays for one array index. -/
structure Slot where
  buy : List ℤ
  sell : List ℤ
deriving DecidableEq

/-- The freshly allocated `{'buy': [0]*14, 'sell': [0]*14}` entry. -/
def zeroSlot : Slot :=
  ⟨List.replicate 14 0, List.replicate 14 0⟩

/-- Writing one price into a slot:
`result[array_idx]['buy'][field_idx] = p['compact_buy']` and the
corresponding `sell` write. -/
def updSlot (s : Slot) (fidx : ℕ) (cb cs : ℤ) : Slot :=
  ⟨s.buy.set fidx cb, s.sell.set fidx cs⟩

/-- One iteration of the `for p in prices` loop of `build_compact_price`,
acting on the ordered dict `result` modelled as an association list: a new
array index is appended at the end (Python dicts preserve insertion order),
an existing one is updated in place. -/
def insertPrice (acc : List (ℕ × Slot)) (aidx fidx : ℕ) (cb cs : ℤ) : List (ℕ × Slot) :=
  match acc with
  | [] => [(aidx, updSlot zeroSlot fidx cb cs)]
  | (k, s) :: rest =>
    if k = aidx then (k, updSlot s fidx cb cs) :: rest
    else (k, s) :: insertPrice rest aidx fidx cb cs

/-- `build_compact_price(prices, token_indices)` from
`reserve_sdk/contract.py`. The `token_indices` dict is modelled as a total
function on token addresses (the source would raise `KeyError` on a missing
token; all call sites populate the dict for every token that occurs).
The byte-level `hexlify` encoding of each 14-entry array (from
`reserve_sdk/utils.py`, not part of the compaction logic) is left as the
identity: the returned buy/sell entries are the 14-entry integer arrays
themselves. -/
def build_compact_price (prices : List PriceUpdate) (tidx : ℕ → TokenIndex) :
    List (List ℤ) × List (List ℤ) × List ℕ :=
  let result := prices.foldl
    (fun acc p =>
      insertPrice acc (tidx p.token).array_idx (tidx p.token).field_idx
        p.compact_buy p.compact_sell) []
  (result.map (fun kv => kv.2.buy), result.map (fun kv => kv.2.sell),
    result.map (fun kv => kv.1))

/-- Spec-side definition (restating the claim's words for C5): the list of
distinct array indices in order of first occurrence in the input sequence. -/
def occList (l : List ℕ) : List ℕ :=
  l.foldl (fun acc a => if a ∈ acc then acc else acc ++ [a]) []

/-- Spec-side definition (restating the claim's words for C5): for one array
index `k`, the pair of 14-entry arrays default-filled with `0` and
overwritten at each matching token's field index with that token's compact
buy/sell values. -/
def specSlot (prices : List PriceUpdate) (tidx : ℕ → TokenIndex) (k : ℕ) : Slot :=
  prices.foldl
    (fun s p =>
      if (tidx p.token).array_idx = k then
        updSlot s (tidx p.token).field_idx p.compact_buy p.compact_sell
      else s) zeroSlot

/-- The array index assigned to a price update by the token-indices map. -/
def aidxOf (tidx : ℕ → TokenIndex) (p : PriceUpdate) : ℕ :=
  (tidx p.token).array_idx

/-- The `for p in prices` loop of `build_compact_price` started from an
arbitrary accumulator (proof device for reasoning about the fold). -/
def bcpFold (tidx : ℕ → TokenIndex) (acc : List (ℕ × Slot)) (prices : List PriceUpdate) :
    List (ℕ × Slot) :=
  prices.foldl
    (fun a p =>
      insertPrice a (tidx p.token).array_idx (tidx p.token).field_idx
        p.compact_buy p.compact_sell) acc

/-- `occList` started from an arbitrary accumulator (proof device). -/
def occFold (ks : List ℕ) (l : List ℕ) : List ℕ :=
  l.foldl (fun acc a => if a ∈ acc then acc else acc ++ [a]) ks

/-- Folding the matching updates of array index `k` over a slot. -/
def slotFold (tidx : ℕ → TokenIndex) (k : ℕ) (s : Slot) (prices : List PriceUpdate) : Slot :=
  prices.foldl
    (fun s p =>
      if (tidx p.token).array_idx = k then
        updSlot s (tidx p.token).field_idx p.compact_buy p.compact_sell
      else s) s

/-- Folding the matching updates of array index `k` over an optional slot,
materialising a zero-filled slot at the first match (proof device describing
what one key of the `result` dict sees). -/
def optSlotFold (tidx : ℕ → TokenIndex) (k : ℕ) (o : Option Slot)
    (prices : List PriceUpdate) : Option Slot :=
  prices.foldl
    (fun o p =>
      if (tidx p.token).array_idx = k then
        some (updSlot (o.getD zeroSlot) (tidx p.token).field_idx p.compact_buy p.compact_sell)
      else o) o

/-- First-match lookup in the ordered-dict model. -/
def lookupS : List (ℕ × Slot) → ℕ → Option Slot
  | [], _ => none
  | (k, s) :: rest, t => if k = t then some s else lookupS rest t

/-- Spec-side predicate (for C4): the compaction of `rate` against `base`
fits in the single-byte delta range, i.e. a delta is computable (`base ≠ 0`)
and lies strictly between `-128` and `127`. A zero base is the case the spec
describes as forcing a base-rate reset. -/
def fitsCompact (rate base : ℚ) : Prop :=
  base ≠ 0 ∧ -128 < truncQ ((rate / base - 1) * 1000) ∧ truncQ ((rate / base - 1) * 1000) < 127

instance (rate base : ℚ) : Decidable (fitsCompact rate base) := by
  unfold fitsCompact; infer_instance

/-- The single transaction submitted by `ConversionRatesContract.set_rates`:
either a `setBaseRate` contract call or a `setCompactData` contract call,
with the argument order of the source. -/
inductive Transaction where
  | setBaseRate (tokens : List ℕ) (base_buy base_sell : List ℚ)
      (compact_buy compact_sell : List (List ℤ)) (block : ℕ) (indices : List ℕ)
  | setCompactData (compact_buy compact_sell : List (List ℤ)) (block : ℕ) (indices : List ℕ)
deriving DecidableEq

/-- Effectful map over a list, propagating the first error in input order:
the model of a Python loop / comprehension / consumed `Executor.map` iterator
over calls that may raise. -/
def mapE {α β ε : Type} (f : α → Except ε β) : List α → Except ε (List β)
  | [] => .ok []
  | a :: l =>
    match f a with
    | .error e => .error e
    | .ok b =>
      match mapE f l with
      | .error e => .error e
      | .ok bs => .ok (b :: bs)

/-- First-match lookup in the token-indices association list (the
`token_indices` dict built by `set_rates`; all queried keys are present, duplicate
keys carry equal values, so first-match agrees with the dict). -/
def lookupTI : List (ℕ × TokenIndex) → ℕ → TokenIndex
  | [], _ => ⟨0, 0⟩
  | (k, v) :: rest, t => if k = t then v else lookupTI rest t

/-- One element of the `executor.map(lambda p: self.build_price(*p), zip(...))`
work list: read the buy-leg base then the sell-leg base through the
`get_basic_rate` oracle `br` and build the price update. -/
def readPrice {ε : Type} (br : ℕ → Bool → Except ε ℚ) (q : ℕ × ℚ × ℚ) :
    Except ε PriceUpdate :=
  match br q.1 true with
  | .error e => .error e
  | .ok bb =>
    match br q.1 false with
    | .error e => .error e
    | .ok bs => .ok (build_price q.1 q.2.1 q.2.2 bb bs)

/-- The tail of `set_rates` once all chain reads have succeeded: partition
off the resets, build the compact batch over all prices, and submit the one
transaction — `setBaseRate` if any reset is present, else `setCompactData`. -/
def finishRates (blk : ℕ) (timap : ℕ → TokenIndex) (prices : List PriceUpdate) : Transaction :=
  let resets := prices.filter (fun p => p.base_changed)
  let bc := build_compact_price prices timap
  if resets.isEmpty then
    .setCompactData bc.1 bc.2.1 blk bc.2.2
  else
    .setBaseRate (resets.map (fun p => p.token)) (resets.map (fun p => p.base_buy))
      (resets.map (fun p => p.base_sell)) bc.1 bc.2.1 blk bc.2.2

/-- `ConversionRatesContract.set_rates(token_addresses, buy_rates, sell_rates)`.
The chain reads are the oracles `tidx` (`get_token_indices`, one call per
token of `token_addresses`, in order) and `br` (`get_basic_rate`, buy leg
then sell leg per zipped token, surfacing errors in input order exactly as
`list(executor.map(...))` re-raises them); `blk` is `w3.eth.blockNumber`.
Python's 3-way `zip` truncates to the shortest list, as `List.zip` does. -/
def set_rates {ε : Type} (tidx : ℕ → Except ε TokenIndex) (br : ℕ → Bool → Except ε ℚ)
    (blk : ℕ) (token_addresses : List ℕ) (buy_rates sell_rates : List ℚ) :
    Except ε Transaction :=
  match mapE tidx token_addresses with
  | .error e => .error e
  | .ok idx_list =>
    match mapE (readPrice br) (token_addresses.zip (buy_rates.zip sell_rates)) with
    | .error e => .error e
    | .ok prices =>
      .ok (finishRates blk (fun t => lookupTI (token_addresses.zip idx_list) t) prices)

/-- The per-token price updates computed by `set_rates` when every chain
read succeeds, with `br` the pure value of the `get_basic_rate` oracle. -/
def pricesOf (br : ℕ → Bool → ℚ) (toks : List ℕ) (buys sells : List ℚ) : List PriceUpdate :=
  (toks.zip (buys.zip sells)).map
    (fun q => build_price q.1 q.2.1 q.2.2 (br q.1 true) (br q.1 false))

/-- `truncQ` is the identity on integers. -/
theorem truncQ_intCast (n : ℤ) : truncQ (n : ℚ) = n := by
  simp only [truncQ, Rat.num_intCast, Rat.den_intCast, Nat.div_one]
  split <;> omega

/-- Evaluation helper: `truncQ` of a rational known to equal an integer. -/
theorem truncQ_congr {q : ℚ} {n : ℤ} (h : q = (n : ℚ)) : truncQ q = n := by
  rw [h, truncQ_intCast]

/-- On nonnegative rationals, truncation toward zero agrees with `⌊·⌋`. -/
theorem truncQ_nonneg {q : ℚ} (h : 0 ≤ q) : truncQ q = ⌊q⌋ := by
  have hnum : 0 ≤ q.num := Rat.num_nonneg.2 h
  rw [truncQ, if_neg (by omega), Rat.floor_def]
  rw [← Int.natAbs_of_nonneg hnum]
  norm_cast

/-- On negative rationals, truncation toward zero agrees with `⌈·⌉`. -/
theorem truncQ_neg {q : ℚ} (h : q < 0) : truncQ q = ⌈q⌉ := by
  have hnum : q.num < 0 := by
    by_contra hc
    exact absurd (Rat.num_nonneg.1 (by omega)) (not_le.2 h)
  have h2 : (0 : ℚ) ≤ -q := by linarith
  have e1 : truncQ (-q) = ⌊-q⌋ := truncQ_nonneg h2
  rw [truncQ, if_pos hnum]
  rw [truncQ, Rat.num_neg_eq_neg_num, Rat.den_neg_eq_den,
    if_neg (by omega), Int.natAbs_neg] at e1
  rw [e1, Int.floor_neg, neg_neg]

/-- Evaluation helper for `get_compact_data` once the truncated delta is known. -/
theorem get_compact_data_eval (rate base : ℚ) (d : ℤ) (hb : base ≠ 0)
    (hd : truncQ ((rate / base - 1) * 1000) = d) :
    get_compact_data rate base =
      if d ≤ -128 ∨ 127 ≤ d then ⟨rate, 0⟩
      else if d < 0 then ⟨base, d + 256⟩ else ⟨base, d⟩ := by
  rw [get_compact_data, if_neg hb]
  simp only [hd, ge_iff_le]

/-- A fitting compaction echoes the base unchanged. -/
theorem get_compact_data_base_of_fits {rate base : ℚ} (h : fitsCompact rate base) :
    (get_compact_data rate base).base = base := by
  obtain ⟨hb, h1, h2⟩ := h
  rw [get_compact_data_eval rate base _ hb rfl, if_neg (by omega)]
  split <;> rfl

/-- A non-fitting compaction of a positive rate resets: the result is
`(rate, 0)`, and the rate necessarily differs from the base. -/
theorem get_compact_data_of_not_fits {rate base : ℚ} (hr : 0 < rate)
    (h : ¬ fitsCompact rate base) :
    get_compact_data rate base = ⟨rate, 0⟩ ∧ rate ≠ base := by
  by_cases hb : base = 0
  · subst hb
    refine ⟨by simp [get_compact_data], ?_⟩
    intro heq
    rw [heq] at hr
    exact lt_irrefl _ hr
  · have hd : truncQ ((rate / base - 1) * 1000) ≤ -128 ∨
        127 ≤ truncQ ((rate / base - 1) * 1000) := by
      by_contra hc
      push_neg at hc
      exact h ⟨hb, by omega, by omega⟩
    refine ⟨by rw [get_compact_data_eval rate base _ hb rfl, if_pos hd], ?_⟩
    intro heq
    rw [heq, div_self hb] at hd
    have h0 : truncQ (((1 : ℚ) - 1) * 1000) = 0 := truncQ_congr (by norm_num)
    rw [h0] at hd
    omega

/-- C1: for rate, base > 0, when the truncated delta lies strictly between
-128 and 127, `get_compact_data` keeps the base unchanged and encodes the
delta as an unsigned byte (adding 256 when negative), so that subtracting
256 from byte values above 127 recovers the delta. -/
theorem c1_fit_encoding (rate base : ℚ) (hrate : 0 < rate) (hbase : 0 < base)
    (h1 : -128 < truncQ ((rate / base - 1) * 1000))
    (h2 : truncQ ((rate / base - 1) * 1000) < 127) :
    (get_compact_data rate base).base = base ∧
    (get_compact_data rate base).compact =
      (if 0 ≤ truncQ ((rate / base - 1) * 1000) then truncQ ((rate / base - 1) * 1000)
       else truncQ ((rate / base - 1) * 1000) + 256) ∧
    (if 127 < (get_compact_data rate base).compact then
        (get_compact_data rate base).compact - 256
      else (get_compact_data rate base).compact) = truncQ ((rate / base - 1) * 1000) := by
  have hb : base ≠ 0 := ne_of_gt hbase
  rw [get_compact_data_eval rate base _ hb rfl]
  rw [if_neg (by omega)]
  by_cases hneg : truncQ ((rate / base - 1) * 1000) < 0
  · rw [if_pos hneg]
    refine ⟨rfl, ?_, ?_⟩
    · rw [if_neg (by omega)]
    · dsimp only
      rw [if_pos (by omega)]
      omega
  · rw [if_neg hneg]
    refine ⟨rfl, ?_, ?_⟩
    · rw [if_pos (by omega)]
    · dsimp only
      rw [if_neg (by omega)]

/-- Witness for C1 at rate = 105, base = 100 (delta 50). -/
theorem c1_fit_encoding_witness :
    (0 : ℚ) < 105 ∧ (0 : ℚ) < 100 ∧
    -128 < truncQ (((105 : ℚ) / 100 - 1) * 1000) ∧
    truncQ (((105 : ℚ) / 100 - 1) * 1000) < 127 ∧
    (get_compact_data 105 100).base = 100 ∧
    (if 127 < (get_compact_data 105 100).compact then (get_compact_data 105 100).compact - 256
      else (get_compact_data 105 100).compact) = truncQ (((105 : ℚ) / 100 - 1) * 1000) := by
  have hd : truncQ (((105 : ℚ) / 100 - 1) * 1000) = 50 := truncQ_congr (by norm_num)
  refine ⟨by norm_num, by norm_num, by rw [hd]; norm_num, by rw [hd]; norm_num, ?_, ?_⟩
  · exact (c1_fit_encoding 105 100 (by norm_num) (by norm_num)
      (by rw [hd]; norm_num) (by rw [hd]; norm_num)).1
  · exact (c1_fit_encoding 105 100 (by norm_num) (by norm_num)
      (by rw [hd]; norm_num) (by rw [hd]; norm_num)).2.2

/-- C2: for base ≠ 0, a truncated delta that is ≤ -128 or ≥ 127 (boundary
values included) takes the reset branch: the result is `(rate, 0)`. -/
theorem c2_reset_out_of_range (rate base : ℚ) (hb : base ≠ 0)
    (h : truncQ ((rate / base - 1) * 1000) ≤ -128 ∨
      127 ≤ truncQ ((rate / base - 1) * 1000)) :
    get_compact_data rate base = ⟨rate, 0⟩ := by
  rw [get_compact_data_eval rate base _ hb rfl, if_pos h]

/-- Witness for C2 at rate = 150, base = 100 (delta 500). -/
theorem c2_reset_out_of_range_witness :
    ((100 : ℚ) ≠ 0) ∧ 127 ≤ truncQ (((150 : ℚ) / 100 - 1) * 1000) ∧
    get_compact_data 150 100 = ⟨150, 0⟩ := by
  have hd : truncQ (((150 : ℚ) / 100 - 1) * 1000) = 500 := truncQ_congr (by norm_num)
  exact ⟨by norm_num, by rw [hd]; norm_num,
    c2_reset_out_of_range 150 100 (by norm_num) (Or.inr (by rw [hd]; norm_num))⟩

/-- C3: with a zero base, `get_compact_data` returns `(rate, 0)` for every
nonnegative rate. -/
theorem c3_zero_base (rate : ℚ) (h : 0 ≤ rate) : get_compact_data rate 0 = ⟨rate, 0⟩ := by
  simp [get_compact_data]

/-- Witness for C3 at rate = 5. -/
theorem c3_zero_base_witness : (0 : ℚ) ≤ 5 ∧ get_compact_data 5 0 = ⟨5, 0⟩ :=
  ⟨by norm_num, c3_zero_base 5 (by norm_num)⟩

/-- C4 counterexample: at buy = 0 with zero recorded buy base (and a fitting
sell leg), the buy compaction takes the reset path — it cannot fit — yet
`base_changed` is `false`; and at buy = 150, sell = 105 over bases 100/100,
`base_changed` is `true` but `base_sell` echoes the prior base 100 rather
than holding the new sell rate 105. -/
theorem c4_counterexample :
    (¬ fitsCompact 0 0 ∧ (build_price 7 0 105 0 100).base_changed = false) ∧
    ((build_price 8 150 105 100 100).base_changed = true ∧
      (build_price 8 150 105 100 100).base_sell = 100 ∧ (100 : ℚ) ≠ 105) := by
  have h00 : get_compact_data 0 0 = ⟨0, 0⟩ := by simp [get_compact_data]
  have h105 : get_compact_data 105 100 = ⟨100, 50⟩ := by
    rw [get_compact_data_eval 105 100 50 (by norm_num) (truncQ_congr (by norm_num))]
    norm_num
  have h150 : get_compact_data 150 100 = ⟨150, 0⟩ := by
    rw [get_compact_data_eval 150 100 500 (by norm_num) (truncQ_congr (by norm_num))]
    norm_num
  refine ⟨⟨?_, ?_⟩, ?_, ?_, by norm_num⟩
  · simp [fitsCompact]
  · simp [build_price, h00, h105]
  · simp only [build_price, h150, h105]
    rw [decide_eq_true_iff]
    norm_num
  · simp [build_price, h150, h105]

/-- C4 (amended): for positive buy and sell rates, `base_changed` is true
iff at least one leg's compaction could not fit (a zero base counting as a
forced reset); a leg that could not fit carries the new rate with compact 0,
and when `base_changed` is false both legs echo the recorded bases. -/
theorem c4_base_changed_amended (t : ℕ) (buy sell bb bs : ℚ)
    (hbuy : 0 < buy) (hsell : 0 < sell) :
    ((build_price t buy sell bb bs).base_changed = true ↔
      (¬ fitsCompact buy bb ∨ ¬ fitsCompact sell bs)) ∧
    (¬ fitsCompact buy bb → (build_price t buy sell bb bs).base_buy = buy ∧
      (build_price t buy sell bb bs).compact_buy = 0) ∧
    (¬ fitsCompact sell bs → (build_price t buy sell bb bs).base_sell = sell ∧
      (build_price t buy sell bb bs).compact_sell = 0) ∧
    ((build_price t buy sell bb bs).base_changed = false →
      (build_price t buy sell bb bs).base_buy = bb ∧
      (build_price t buy sell bb bs).base_sell = bs) := by
  have keybuy : (get_compact_data buy bb).base = bb ↔ fitsCompact buy bb := by
    constructor
    · intro h
      by_contra hnf
      have hnf' := get_compact_data_of_not_fits hbuy hnf
      rw [hnf'.1] at h
      exact hnf'.2 h
    · exact get_compact_data_base_of_fits
  have keysell : (get_compact_data sell bs).base = bs ↔ fitsCompact sell bs := by
    constructor
    · intro h
      by_contra hnf
      have hnf' := get_compact_data_of_not_fits hsell hnf
      rw [hnf'.1] at h
      exact hnf'.2 h
    · exact get_compact_data_base_of_fits
  refine ⟨?_, ?_, ?_, ?_⟩
  · simp only [build_price, decide_eq_true_iff]
    constructor
    · intro h
      rcases h with h | h
      · exact Or.inl (fun hf => h (keybuy.2 hf))
      · exact Or.inr (fun hf => h (keysell.2 hf))
    · intro h
      rcases h with h | h
      · exact Or.inl (fun he => h (keybuy.1 he))
      · exact Or.inr (fun he => h (keysell.1 he))
  · intro h
    have hnf' := get_compact_data_of_not_fits hbuy h
    simp [build_price, hnf'.1]
  · intro h
    have hnf' := get_compact_data_of_not_fits hsell h
    simp [build_price, hnf'.1]
  · intro h
    simp only [build_price, decide_eq_false_iff_not, not_or, not_not] at h
    exact ⟨h.1, h.2⟩

/-- Witness for C4 (amended) at buy = 150, sell = 105 over bases 100/100. -/
theorem c4_base_changed_amended_witness :
    (0 : ℚ) < 150 ∧ (0 : ℚ) < 105 ∧
    ((build_price 8 150 105 100 100).base_changed = true ↔
      (¬ fitsCompact 150 100 ∨ ¬ fitsCompact 105 100)) :=
  ⟨by norm_num, by norm_num,
    (c4_base_changed_amended 8 150 105 100 100 (by norm_num) (by norm_num)).1⟩

/-- C9: the delta is computed by truncation toward zero (`int()` semantics),
which agrees with `⌊·⌋` on nonnegative arguments and with `⌈·⌉` on negative
ones — not with floor: `-13.7` truncates to `-13` while its floor is `-14`;
`get_compact_data(98.7, 100)` has delta `-13` and yields `(100, 243)`, and
at `rate = 98.63` (true delta `-13.7`) the code also yields compact `243`
(floor semantics would give `242`). -/
theorem c9_truncation_toward_zero :
    (∀ q : ℚ, 0 ≤ q → truncQ q = ⌊q⌋) ∧
    (∀ q : ℚ, q < 0 → truncQ q = ⌈q⌉) ∧
    truncQ (-137 / 10 : ℚ) = -13 ∧ ⌊(-137 / 10 : ℚ)⌋ = -14 ∧
    truncQ (((987 / 10 : ℚ) / 100 - 1) * 1000) = -13 ∧
    get_compact_data (987 / 10) 100 = ⟨100, 243⟩ ∧
    get_compact_data (9863 / 100) 100 = ⟨100, 243⟩ := by
  have hceil : truncQ (-137 / 10 : ℚ) = -13 := by
    rw [truncQ_neg (by norm_num), Int.ceil_eq_iff]
    norm_num
  refine ⟨fun q h => truncQ_nonneg h, fun q h => truncQ_neg h, hceil, ?_, ?_, ?_, ?_⟩
  · rw [Int.floor_eq_iff]
    norm_num
  · exact truncQ_congr (by norm_num)
  · rw [get_compact_data_eval _ _ (-13) (by norm_num) (truncQ_congr (by norm_num))]
    norm_num
  · have harg : ((9863 / 100 : ℚ) / 100 - 1) * 1000 = -137 / 10 := by norm_num
    have hd : truncQ (((9863 / 100 : ℚ) / 100 - 1) * 1000) = -13 := by rw [harg, hceil]
    rw [get_compact_data_eval _ _ (-13) (by norm_num) hd]
    norm_num

/-- Witness for C9: the two universally quantified parts at -1/2 and 1/2. -/
theorem c9_truncation_toward_zero_witness :
    ((-1 / 2 : ℚ) < 0) ∧ truncQ (-1 / 2 : ℚ) = ⌈(-1 / 2 : ℚ)⌉ ∧
    ((0 : ℚ) ≤ 1 / 2) ∧ truncQ (1 / 2 : ℚ) = ⌊(1 / 2 : ℚ)⌋ :=
  ⟨by norm_num, c9_truncation_toward_zero.2.1 _ (by norm_num),
    by norm_num, c9_truncation_toward_zero.1 _ (by norm_num)⟩

/-- C10: for every input, the compact field is an integer in 0..255, and the
values 127 and 128 are never produced: the output lies in 0..126 or
129..255. -/
theorem c10_compact_byte_range (rate base : ℚ) :
    (0 ≤ (get_compact_data rate base).compact ∧ (get_compact_data rate base).compact ≤ 255) ∧
    (get_compact_data rate base).compact ≠ 127 ∧
    (get_compact_data rate base).compact ≠ 128 ∧
    ((get_compact_data rate base).compact ≤ 126 ∨ 129 ≤ (get_compact_data rate base).compact) := by
  by_cases hb : base = 0
  · rw [hb]
    simp [get_compact_data]
  · rw [get_compact_data_eval rate base _ hb rfl]
    by_cases h : truncQ ((rate / base - 1) * 1000) ≤ -128 ∨
        127 ≤ truncQ ((rate / base - 1) * 1000)
    · rw [if_pos h]
      norm_num
    · rw [if_neg h]
      push_neg at h
      by_cases hneg : truncQ ((rate / base - 1) * 1000) < 0
      · rw [if_pos hneg]
        dsimp only
        omega
      · rw [if_neg hneg]
        dsimp only
        omega

/-- Unfolding: one step of the `build_compact_price` loop. -/
theorem bcpFold_cons (tidx : ℕ → TokenIndex) (acc : List (ℕ × Slot)) (p : PriceUpdate)
    (rest : List PriceUpdate) :
    bcpFold tidx acc (p :: rest) =
      bcpFold tidx
        (insertPrice acc (tidx p.token).array_idx (tidx p.token).field_idx
          p.compact_buy p.compact_sell) rest := rfl

/-- Unfolding: one step of the first-occurrence fold. -/
theorem occFold_cons (ks : List ℕ) (a : ℕ) (l : List ℕ) :
    occFold ks (a :: l) = occFold (if a ∈ ks then ks else ks ++ [a]) l := rfl

/-- Unfolding: one step of the slot fold. -/
theorem slotFold_cons (tidx : ℕ → TokenIndex) (k : ℕ) (s : Slot) (p : PriceUpdate)
    (rest : List PriceUpdate) :
    slotFold tidx k s (p :: rest) =
      slotFold tidx k
        (if (tidx p.token).array_idx = k then
          updSlot s (tidx p.token).field_idx p.compact_buy p.compact_sell
        else s) rest := rfl

/-- Unfolding: one step of the optional slot fold. -/
theorem optSlotFold_cons (tidx : ℕ → TokenIndex) (k : ℕ) (o : Option Slot) (p : PriceUpdate)
    (rest : List PriceUpdate) :
    optSlotFold tidx k o (p :: rest) =
      optSlotFold tidx k
        (if (tidx p.token).array_idx = k then
          some (updSlot (o.getD zeroSlot) (tidx p.token).field_idx p.compact_buy p.compact_sell)
        else o) rest := rfl

/-- Keys of the result dict after one loop iteration: an existing array
index leaves the key list unchanged, a new one is appended. -/
theorem keys_insertPrice (acc : List (ℕ × Slot)) (a f : ℕ) (cb cs : ℤ) :
    (insertPrice acc a f cb cs).map Prod.fst =
      if a ∈ acc.map Prod.fst then acc.map Prod.fst else acc.map Prod.fst ++ [a] := by
  induction acc with
  | nil => simp [insertPrice]
  | cons hd tl ih =>
    obtain ⟨k, s⟩ := hd
    by_cases hk : k = a
    · subst hk
      simp [insertPrice]
    · simp only [insertPrice, if_neg hk, List.map_cons, ih]
      by_cases hm : a ∈ tl.map Prod.fst
      · rw [if_pos hm, if_pos (by simp [hm])]
      · rw [if_neg hm, if_neg (by
          simp only [List.mem_cons]
          rintro (hc | hc)
          · exact hk (Eq.symm hc)
          · exact hm hc)]
        simp

/-- Lookup after one loop iteration. -/
theorem lookupS_insertPrice (acc : List (ℕ × Slot)) (a f : ℕ) (cb cs : ℤ) (t : ℕ) :
    lookupS (insertPrice acc a f cb cs) t =
      if t = a then some (updSlot ((lookupS acc a).getD zeroSlot) f cb cs)
      else lookupS acc t := by
  induction acc with
  | nil =>
    show (if a = t then some (updSlot zeroSlot f cb cs) else lookupS [] t) = _
    by_cases ht : t = a
    · subst ht
      rw [if_pos rfl, if_pos rfl]
      rfl
    · rw [if_neg (fun h => ht (Eq.symm h)), if_neg ht]
  | cons hd tl ih =>
    obtain ⟨k, s⟩ := hd
    by_cases hk : k = a
    · subst hk
      have hins : insertPrice ((k, s) :: tl) k f cb cs = (k, updSlot s f cb cs) :: tl := by
        simp [insertPrice]
      rw [hins]
      show (if k = t then some (updSlot s f cb cs) else lookupS tl t) =
        if t = k then some (updSlot ((lookupS ((k, s) :: tl) k).getD zeroSlot) f cb cs)
        else lookupS ((k, s) :: tl) t
      by_cases ht : t = k
      · subst ht
        simp [lookupS]
      · have ht' : ¬ k = t := fun h => ht (Eq.symm h)
        rw [if_neg ht', if_neg ht]
        show lookupS tl t = if k = t then some s else lookupS tl t
        rw [if_neg ht']
    · have hins : insertPrice ((k, s) :: tl) a f cb cs = (k, s) :: insertPrice tl a f cb cs := by
        simp [insertPrice, hk]
      rw [hins]
      show (if k = t then some s else lookupS (insertPrice tl a f cb cs) t) =
        if t = a then some (updSlot ((lookupS ((k, s) :: tl) a).getD zeroSlot) f cb cs)
        else lookupS ((k, s) :: tl) t
      have hka : lookupS ((k, s) :: tl) a = lookupS tl a := by
        show (if k = a then some s else lookupS tl a) = _
        rw [if_neg hk]
      rw [ih, hka]
      by_cases ht : t = a
      · subst ht
        rw [if_neg (show ¬ k = t from hk), if_pos rfl, if_pos rfl]
      · rw [if_neg ht, if_neg ht]
        show (if k = t then some s else lookupS tl t) = lookupS ((k, s) :: tl) t
        rfl

/-- Keys of the whole fold: the first-occurrence list of array indices,
continued from the accumulator's keys. -/
theorem keys_bcpFold (tidx : ℕ → TokenIndex) (prices : List PriceUpdate) :
    ∀ acc : List (ℕ × Slot),
      (bcpFold tidx acc prices).map Prod.fst =
        occFold (acc.map Prod.fst) (prices.map (aidxOf tidx)) := by
  induction prices with
  | nil => intro acc; rfl
  | cons p rest ih =>
    intro acc
    rw [bcpFold_cons, ih, keys_insertPrice, List.map_cons, occFold_cons]
    rfl

/-- Lookup through the whole fold. -/
theorem lookupS_bcpFold (tidx : ℕ → TokenIndex) (prices : List PriceUpdate) :
    ∀ (acc : List (ℕ × Slot)) (t : ℕ),
      lookupS (bcpFold tidx acc prices) t = optSlotFold tidx t (lookupS acc t) prices := by
  induction prices with
  | nil => intro acc t; rfl
  | cons p rest ih =>
    intro acc t
    rw [bcpFold_cons, ih, lookupS_insertPrice, optSlotFold_cons]
    by_cases ht : t = (tidx p.token).array_idx
    · rw [if_pos ht, if_pos (Eq.symm ht), ht]
    · rw [if_neg ht, if_neg (fun h => ht (Eq.symm h))]

/-- `optSlotFold` from an existing slot is `slotFold`. -/
theorem optSlotFold_some (tidx : ℕ → TokenIndex) (k : ℕ) (prices : List PriceUpdate) :
    ∀ s : Slot, optSlotFold tidx k (some s) prices = some (slotFold tidx k s prices) := by
  induction prices with
  | nil => intro s; rfl
  | cons p rest ih =>
    intro s
    rw [optSlotFold_cons, slotFold_cons]
    by_cases h : (tidx p.token).array_idx = k
    · rw [if_pos h, if_pos h, Option.getD_some]
      exact ih _
    · rw [if_neg h, if_neg h]
      exact ih s

/-- `optSlotFold` from `none`: a slot materialises exactly when the key
occurs among the array indices, and then equals `slotFold` from the
zero-filled slot. -/
theorem optSlotFold_none (tidx : ℕ → TokenIndex) (k : ℕ) (prices : List PriceUpdate) :
    optSlotFold tidx k none prices =
      if k ∈ prices.map (aidxOf tidx) then some (slotFold tidx k zeroSlot prices)
      else none := by
  induction prices with
  | nil => rfl
  | cons p rest ih =>
    rw [optSlotFold_cons, slotFold_cons]
    by_cases h : (tidx p.token).array_idx = k
    · rw [if_pos h, if_pos h, Option.getD_none, optSlotFold_some,
        if_pos (by simp [List.map_cons, aidxOf, h])]
    · rw [if_neg h, if_neg h, ih]
      by_cases hm : k ∈ rest.map (aidxOf tidx)
      · rw [if_pos hm, if_pos (by
          rw [List.map_cons]
          exact List.mem_cons_of_mem _ hm)]
      · rw [if_neg hm, if_neg (by
          rw [List.map_cons]
          intro hc
          rcases List.mem_cons.1 hc with hc | hc
          · exact h (Eq.symm hc)
          · exact hm hc)]

/-- First-occurrence lists have no duplicate entries. -/
theorem occFold_nodup (l : List ℕ) :
    ∀ ks : List ℕ, ks.Nodup → (occFold ks l).Nodup := by
  induction l with
  | nil => intro ks h; exact h
  | cons a l ih =>
    intro ks h
    show (occFold (if a ∈ ks then ks else ks ++ [a]) l).Nodup
    by_cases hm : a ∈ ks
    · rw [if_pos hm]; exact ih ks h
    · rw [if_neg hm]
      exact ih _ (by simp [List.nodup_append, h, hm])

/-- Every entry of a first-occurrence list comes from the seed or the input. -/
theorem mem_occFold (l : List ℕ) :
    ∀ (ks : List ℕ) (x : ℕ), x ∈ occFold ks l → x ∈ ks ∨ x ∈ l := by
  induction l with
  | nil => intro ks x h; exact Or.inl h
  | cons a l ih =>
    intro ks x h
    have h' := ih (if a ∈ ks then ks else ks ++ [a]) x h
    by_cases hm : a ∈ ks
    · rw [if_pos hm] at h'
      rcases h' with h' | h'
      · exact Or.inl h'
      · exact Or.inr (List.mem_cons_of_mem _ h')
    · rw [if_neg hm] at h'
      rcases h' with h' | h'
      · rcases List.mem_append.1 h' with h'' | h''
        · exact Or.inl h''
        · simp only [List.mem_singleton] at h''
          exact Or.inr (h'' ▸ List.mem_cons_self _ _)
      · exact Or.inr (List.mem_cons_of_mem _ h')

/-- In an association list with distinct keys, lookup finds each entry. -/
theorem lookupS_of_mem :
    ∀ (l : List (ℕ × Slot)), (l.map Prod.fst).Nodup →
      ∀ (k : ℕ) (s : Slot), (k, s) ∈ l → lookupS l k = some s := by
  intro l
  induction l with
  | nil => intro _ k s h; exact absurd h (List.not_mem_nil _)
  | cons hd tl ih =>
    obtain ⟨k', s'⟩ := hd
    intro hnd k s h
    rw [List.map_cons, List.nodup_cons] at hnd
    rcases List.mem_cons.1 h with h' | h'
    · injection h' with h1 h2
      subst h1
      subst h2
      show (if k = k then some s else lookupS tl k) = some s
      rw [if_pos rfl]
    · show (if k' = k then some s' else lookupS tl k) = some s
      by_cases hk : k' = k
      · subst hk
        exact absurd (List.mem_map.2 ⟨(k', s), h', rfl⟩) hnd.1
      · rw [if_neg hk]
        exact ih hnd.2 k s h'

/-- The buy/sell arrays of a slot fold keep their length. -/
theorem slotFold_length (tidx : ℕ → TokenIndex) (k : ℕ) (prices : List PriceUpdate) :
    ∀ s : Slot, (slotFold tidx k s prices).buy.length = s.buy.length ∧
      (slotFold tidx k s prices).sell.length = s.sell.length := by
  induction prices with
  | nil => intro s; exact ⟨rfl, rfl⟩
  | cons p rest ih =>
    intro s
    show (slotFold tidx k (if (tidx p.token).array_idx = k then _ else _) rest).buy.length = _ ∧
      (slotFold tidx k (if (tidx p.token).array_idx = k then _ else _) rest).sell.length = _
    by_cases h : (tidx p.token).array_idx = k
    · rw [if_pos h]
      refine ⟨(ih _).1.trans ?_, (ih _).2.trans ?_⟩ <;> simp [updSlot]
    · rw [if_neg h]
      exact ih s

/-- Each entry of the fold's result dict holds the claim-side slot of its key. -/
theorem bcpFold_entry (tidx : ℕ → TokenIndex) (prices : List PriceUpdate) :
    ∀ kv ∈ bcpFold tidx [] prices, kv.2 = specSlot prices tidx kv.1 := by
  intro kv hkv
  have hnd : ((bcpFold tidx [] prices).map Prod.fst).Nodup := by
    rw [keys_bcpFold]
    exact occFold_nodup _ [] List.nodup_nil
  have h1 : lookupS (bcpFold tidx [] prices) kv.1 = some kv.2 :=
    lookupS_of_mem _ hnd kv.1 kv.2 hkv
  have hmem : kv.1 ∈ prices.map (aidxOf tidx) := by
    have : kv.1 ∈ (bcpFold tidx [] prices).map Prod.fst :=
      List.mem_map.2 ⟨kv, hkv, rfl⟩
    rw [keys_bcpFold] at this
    rcases mem_occFold _ [] kv.1 this with h | h
    · exact absurd h (List.not_mem_nil _)
    · exact h
  have h2 : lookupS (bcpFold tidx [] prices) kv.1 =
      some (slotFold tidx kv.1 zeroSlot prices) := by
    rw [lookupS_bcpFold]
    show optSlotFold tidx kv.1 none prices = _
    rw [optSlotFold_none, if_pos hmem]
  rw [h1] at h2
  exact Option.some.inj h2

/-- C5: `build_compact_price` groups its input by array index, emitting for
each distinct array index, in order of first occurrence, a 14-entry buy
array and a 14-entry sell array default-filled with 0 and overwritten at
each matching token's field index; the three outputs have equal length; and
on two updates at array index 0 with field indices 3 and 5 it produces one
entry set at positions 3 and 5 and 0 elsewhere. -/
theorem c5_group_by_array_index :
    (∀ (prices : List PriceUpdate) (tidx : ℕ → TokenIndex),
      (build_compact_price prices tidx).2.2 =
        occList (prices.map (fun p => (tidx p.token).array_idx)) ∧
      (build_compact_price prices tidx).1 =
        ((build_compact_price prices tidx).2.2).map
          (fun k => (specSlot prices tidx k).buy) ∧
      (build_compact_price prices tidx).2.1 =
        ((build_compact_price prices tidx).2.2).map
          (fun k => (specSlot prices tidx k).sell) ∧
      ((build_compact_price prices tidx).1).length =
        ((build_compact_price prices tidx).2.2).length ∧
      ((build_compact_price prices tidx).2.1).length =
        ((build_compact_price prices tidx).2.2).length ∧
      (∀ arr ∈ (build_compact_price prices tidx).1, arr.length = 14) ∧
      (∀ arr ∈ (build_compact_price prices tidx).2.1, arr.length = 14)) ∧
    build_compact_price
        [⟨1, 0, 0, 11, 12, false⟩, ⟨2, 0, 0, 21, 22, false⟩]
        (fun t => if t = 1 then ⟨0, 3⟩ else ⟨0, 5⟩) =
      ([[0, 0, 0, 11, 0, 21, 0, 0, 0, 0, 0, 0, 0, 0]],
       [[0, 0, 0, 12, 0, 22, 0, 0, 0, 0, 0, 0, 0, 0]], [0]) := by
  refine ⟨fun prices tidx => ?_, by decide⟩
  have hidx : (build_compact_price prices tidx).2.2 =
      (bcpFold tidx [] prices).map Prod.fst := rfl
  have hbuy : (build_compact_price prices tidx).1 =
      (bcpFold tidx [] prices).map (fun kv => kv.2.buy) := rfl
  have hsell : (build_compact_price prices tidx).2.1 =
      (bcpFold tidx [] prices).map (fun kv => kv.2.sell) := rfl
  have hspec : specSlot prices tidx = fun k => slotFold tidx k zeroSlot prices := rfl
  have hbuy2 : (build_compact_price prices tidx).1 =
      ((build_compact_price prices tidx).2.2).map (fun k => (specSlot prices tidx k).buy) := by
    rw [hbuy, hidx, List.map_map]
    refine List.map_congr_left ?_
    intro kv hkv
    show kv.2.buy = (specSlot prices tidx kv.1).buy
    rw [bcpFold_entry tidx prices kv hkv]
  have hsell2 : (build_compact_price prices tidx).2.1 =
      ((build_compact_price prices tidx).2.2).map (fun k => (specSlot prices tidx k).sell) := by
    rw [hsell, hidx, List.map_map]
    refine List.map_congr_left ?_
    intro kv hkv
    show kv.2.sell = (specSlot prices tidx kv.1).sell
    rw [bcpFold_entry tidx prices kv hkv]
  refine ⟨?_, hbuy2, hsell2, ?_, ?_, ?_, ?_⟩
  · rw [hidx, keys_bcpFold]
    rfl
  · rw [hbuy2, List.length_map]
  · rw [hsell2, List.length_map]
  · intro arr harr
    rw [hbuy2] at harr
    obtain ⟨k, _, hk⟩ := List.mem_map.1 harr
    rw [← hk, hspec]
    exact ((slotFold_length tidx k prices zeroSlot).1).trans (by simp [zeroSlot])
  · intro arr harr
    rw [hsell2] at harr
    obtain ⟨k, _, hk⟩ := List.mem_map.1 harr
    rw [← hk, hspec]
    exact ((slotFold_length tidx k prices zeroSlot).2).trans (by simp [zeroSlot])

/-- Witness for C5: the length-14 statements applied at the concrete
two-update input. -/
theorem c5_group_by_array_index_witness :
    [(0 : ℤ), 0, 0, 11, 0, 21, 0, 0, 0, 0, 0, 0, 0, 0] ∈
      (build_compact_price
        [⟨1, 0, 0, 11, 12, false⟩, ⟨2, 0, 0, 21, 22, false⟩]
        (fun t => if t = 1 then ⟨0, 3⟩ else ⟨0, 5⟩)).1 ∧
    ([(0 : ℤ), 0, 0, 11, 0, 21, 0, 0, 0, 0, 0, 0, 0, 0] : List ℤ).length = 14 :=
  ⟨by decide,
    (c5_group_by_array_index.1
      [⟨1, 0, 0, 11, 12, false⟩, ⟨2, 0, 0, 21, 22, false⟩]
      (fun t => if t = 1 then ⟨0, 3⟩ else ⟨0, 5⟩)).2.2.2.2.2.1
      _ (by decide)⟩


/-- Unfolding: `set_rates` as nested matches over the two read phases. -/
theorem set_rates_eq {ε : Type} (tidx : ℕ → Except ε TokenIndex)
    (br : ℕ → Bool → Except ε ℚ) (blk : ℕ) (toks : List ℕ) (buys sells : List ℚ) :
    set_rates tidx br blk toks buys sells =
      match mapE tidx toks with
      | .error e => .error e
      | .ok idx_list =>
        match mapE (readPrice br) (toks.zip (buys.zip sells)) with
        | .error e => .error e
        | .ok prices =>
          .ok (finishRates blk (fun t => lookupTI (toks.zip idx_list) t) prices) := rfl

/-- Unfolding: one step of `mapE`. -/
theorem mapE_cons {α β ε : Type} (f : α → Except ε β) (a : α) (l : List α) :
    mapE f (a :: l) =
      match f a with
      | .error e => .error e
      | .ok b =>
        match mapE f l with
        | .error e => .error e
        | .ok bs => .ok (b :: bs) := rfl

/-- A pointwise-successful effectful map is `List.map`. -/
theorem mapE_ok_of_forall {α β ε : Type} (f : α → Except ε β) (g : α → β)
    (h : ∀ a, f a = .ok (g a)) : ∀ l : List α, mapE f l = .ok (l.map g) := by
  intro l
  induction l with
  | nil => rfl
  | cons a l ih =>
    rw [mapE_cons, h a, ih]
    rfl

/-- A map over elements that each succeed succeeds. -/
theorem mapE_exists_ok {α β ε : Type} {f : α → Except ε β} :
    ∀ {l : List α}, (∀ a ∈ l, ∃ b, f a = .ok b) → ∃ out, mapE f l = .ok out := by
  intro l
  induction l with
  | nil => intro _; exact ⟨[], rfl⟩
  | cons a l ih =>
    intro h
    obtain ⟨b, hb⟩ := h a (List.mem_cons_self a l)
    obtain ⟨out, hout⟩ := ih (fun x hx => h x (List.mem_cons_of_mem a hx))
    exact ⟨b :: out, by rw [mapE_cons, hb, hout]⟩

/-- A successful map means every element's read succeeded. -/
theorem mapE_ok_forall {α β ε : Type} {f : α → Except ε β} :
    ∀ {l : List α} {out : List β}, mapE f l = .ok out → ∀ a ∈ l, ∃ b, f a = .ok b := by
  intro l
  induction l with
  | nil => intro out _ a ha; exact absurd ha (List.not_mem_nil a)
  | cons x l ih =>
    intro out h a ha
    rw [mapE_cons] at h
    cases hx : f x with
    | error e => rw [hx] at h; exact Except.noConfusion h
    | ok b =>
      rw [hx] at h
      cases hml : mapE f l with
      | error e => rw [hml] at h; exact Except.noConfusion h
      | ok bs =>
        rcases List.mem_cons.1 ha with ha' | ha'
        · exact ⟨b, by rw [ha']; exact hx⟩
        · exact ih hml a ha'

/-- Every output of a successful map comes from some input's read. -/
theorem mapE_mem_of_ok {α β ε : Type} {f : α → Except ε β} :
    ∀ {l : List α} {out : List β}, mapE f l = .ok out → ∀ b ∈ out, ∃ a ∈ l, f a = .ok b := by
  intro l
  induction l with
  | nil =>
    intro out h b hb
    have h' : ([] : List β) = out := Except.ok.inj h
    subst h'
    exact absurd hb (List.not_mem_nil b)
  | cons x l ih =>
    intro out h b hb
    rw [mapE_cons] at h
    cases hx : f x with
    | error e => rw [hx] at h; exact Except.noConfusion h
    | ok b0 =>
      rw [hx] at h
      cases hml : mapE f l with
      | error e => rw [hml] at h; exact Except.noConfusion h
      | ok bs =>
        rw [hml] at h
        have h' : b0 :: bs = out := Except.ok.inj h
        subst h'
        rcases List.mem_cons.1 hb with hb' | hb'
        · exact ⟨x, List.mem_cons_self x l, by rw [hb']; exact hx⟩
        · obtain ⟨a, ha, hfa⟩ := ih hml b hb'
          exact ⟨a, List.mem_cons_of_mem x ha, hfa⟩

/-- The token-indices dict built by zipping the lookup results gives back
each token's own lookup value. -/
theorem lookupTI_zip {ε : Type} (f : ℕ → Except ε TokenIndex) :
    ∀ (l : List ℕ) (out : List TokenIndex), mapE f l = .ok out →
      ∀ (t : ℕ) (w : TokenIndex), t ∈ l → f t = .ok w → lookupTI (l.zip out) t = w := by
  intro l
  induction l with
  | nil => intro out _ t w ht _; exact absurd ht (List.not_mem_nil t)
  | cons a l ih =>
    intro out h t w ht hw
    rw [mapE_cons] at h
    cases ha : f a with
    | error e => rw [ha] at h; exact Except.noConfusion h
    | ok b =>
      rw [ha] at h
      cases hml : mapE f l with
      | error e => rw [hml] at h; exact Except.noConfusion h
      | ok bs =>
        rw [hml] at h
        have hout : b :: bs = out := Except.ok.inj h
        subst hout
        rw [List.zip_cons_cons]
        show (if a = t then b else lookupTI (l.zip bs) t) = w
        by_cases hat : a = t
        · rw [if_pos hat]
          subst hat
          rw [ha] at hw
          exact Except.ok.inj hw
        · rw [if_neg hat]
          rcases List.mem_cons.1 ht with ht' | ht'
          · exact absurd (Eq.symm ht') hat
          · exact ih bs hml t w ht' hw

/-- A successful `readPrice` yields the update of its own token. -/
theorem readPrice_ok_token {ε : Type} (br : ℕ → Bool → Except ε ℚ) (q : ℕ × ℚ × ℚ)
    (p : PriceUpdate) (h : readPrice br q = .ok p) : p.token = q.1 := by
  unfold readPrice at h
  cases h1 : br q.1 true with
  | error e => rw [h1] at h; exact Except.noConfusion h
  | ok bb =>
    rw [h1] at h
    cases h2 : br q.1 false with
    | error e => rw [h2] at h; exact Except.noConfusion h
    | ok bs =>
      rw [h2] at h
      have h3 := Except.ok.inj h
      rw [← h3]
      rfl

/-- `build_compact_price` only consults the token-indices map at the tokens
of its input updates. -/
theorem bcpFold_congr (f g : ℕ → TokenIndex) :
    ∀ prices : List PriceUpdate, (∀ p ∈ prices, f p.token = g p.token) →
      ∀ acc, bcpFold f acc prices = bcpFold g acc prices := by
  intro prices
  induction prices with
  | nil => intro _ acc; rfl
  | cons p rest ih =>
    intro h acc
    rw [bcpFold_cons, bcpFold_cons, h p (List.mem_cons_self p rest)]
    exact ih (fun q hq => h q (List.mem_cons_of_mem p hq)) _

/-- Congruence of `build_compact_price` in the token-indices map. -/
theorem build_compact_price_congr (prices : List PriceUpdate) (f g : ℕ → TokenIndex)
    (h : ∀ p ∈ prices, f p.token = g p.token) :
    build_compact_price prices f = build_compact_price prices g := by
  have hf : bcpFold f [] prices = bcpFold g [] prices := bcpFold_congr f g prices h []
  show ((bcpFold f [] prices).map (fun kv => kv.2.buy),
    (bcpFold f [] prices).map (fun kv => kv.2.sell),
    (bcpFold f [] prices).map (fun kv => kv.1)) = _
  rw [hf]
  rfl

/-- A 3-way zip truncates all three lists to the minimum length. -/
theorem zip3_take (l1 : List ℕ) (l2 l3 : List ℚ) :
    l1.zip (l2.zip l3) =
      (l1.take (min l1.length (min l2.length l3.length))).zip
        ((l2.take (min l1.length (min l2.length l3.length))).zip
          (l3.take (min l1.length (min l2.length l3.length)))) := by
  induction l1 generalizing l2 l3 with
  | nil => simp
  | cons a l1 ih =>
    cases l2 with
    | nil => simp
    | cons b l2 =>
      cases l3 with
      | nil => simp
      | cons c l3 =>
        have hmin : min (a :: l1).length (min (b :: l2).length (c :: l3).length) =
            min l1.length (min l2.length l3.length) + 1 := by
          simp only [List.length_cons]
          omega
        rw [hmin, List.take_succ_cons, List.take_succ_cons, List.take_succ_cons]
        simp only [List.zip_cons_cons]
        rw [ih]

/-- C6: exactly one transaction per `set_rates` call (the return value is a
single `Transaction`): when at least one token's price update has
`base_changed`, it is a `setBaseRate` call carrying the new base values of
exactly the reset tokens together with the full compact batch over all
tokens; when no update has `base_changed`, it is a `setCompactData` call
carrying only the compact batch and array indices. -/
theorem c6_single_transaction (ti : ℕ → TokenIndex) (br : ℕ → Bool → ℚ) (blk : ℕ)
    (toks : List ℕ) (buys sells : List ℚ) :
    ((∃ p ∈ pricesOf br toks buys sells, p.base_changed = true) →
      set_rates (fun t => (.ok (ti t) : Except Unit TokenIndex)) (fun t b => .ok (br t b))
          blk toks buys sells =
        .ok (.setBaseRate
          (((pricesOf br toks buys sells).filter (fun p => p.base_changed)).map
            (fun p => p.token))
          (((pricesOf br toks buys sells).filter (fun p => p.base_changed)).map
            (fun p => p.base_buy))
          (((pricesOf br toks buys sells).filter (fun p => p.base_changed)).map
            (fun p => p.base_sell))
          (build_compact_price (pricesOf br toks buys sells)
            (fun t => lookupTI (toks.zip (toks.map ti)) t)).1
          (build_compact_price (pricesOf br toks buys sells)
            (fun t => lookupTI (toks.zip (toks.map ti)) t)).2.1
          blk
          (build_compact_price (pricesOf br toks buys sells)
            (fun t => lookupTI (toks.zip (toks.map ti)) t)).2.2)) ∧
    ((∀ p ∈ pricesOf br toks buys sells, p.base_changed = false) →
      set_rates (fun t => (.ok (ti t) : Except Unit TokenIndex)) (fun t b => .ok (br t b))
          blk toks buys sells =
        .ok (.setCompactData
          (build_compact_price (pricesOf br toks buys sells)
            (fun t => lookupTI (toks.zip (toks.map ti)) t)).1
          (build_compact_price (pricesOf br toks buys sells)
            (fun t => lookupTI (toks.zip (toks.map ti)) t)).2.1
          blk
          (build_compact_price (pricesOf br toks buys sells)
            (fun t => lookupTI (toks.zip (toks.map ti)) t)).2.2)) := by
  have h1 : mapE (fun t => (.ok (ti t) : Except Unit TokenIndex)) toks = .ok (toks.map ti) :=
    mapE_ok_of_forall _ ti (fun _ => rfl) toks
  have h2 : mapE (readPrice (fun t b => (.ok (br t b) : Except Unit ℚ)))
      (toks.zip (buys.zip sells)) = .ok (pricesOf br toks buys sells) :=
    mapE_ok_of_forall _ _ (fun _ => rfl) _
  have hmain : set_rates (fun t => (.ok (ti t) : Except Unit TokenIndex))
      (fun t b => .ok (br t b)) blk toks buys sells =
      .ok (finishRates blk (fun t => lookupTI (toks.zip (toks.map ti)) t)
        (pricesOf br toks buys sells)) := by
    rw [set_rates_eq, h1, h2]
  constructor
  · rintro ⟨p, hp, hbc⟩
    rw [hmain]
    have hmem : p ∈ (pricesOf br toks buys sells).filter (fun p => p.base_changed) :=
      List.mem_filter.2 ⟨hp, hbc⟩
    have hne : ((pricesOf br toks buys sells).filter (fun p => p.base_changed)).isEmpty =
        false := by
      cases hfe : ((pricesOf br toks buys sells).filter (fun p => p.base_changed)).isEmpty
      · rfl
      · exfalso
        rw [List.isEmpty_iff.1 hfe] at hmem
        exact List.not_mem_nil p hmem
    simp only [finishRates]
    rw [hne]
    rfl
  · intro hall
    rw [hmain]
    have hfe : ((pricesOf br toks buys sells).filter (fun p => p.base_changed)).isEmpty =
        true := by
      rw [List.isEmpty_iff, List.filter_eq_nil_iff]
      intro a ha
      rw [hall a ha]
      exact Bool.false_ne_true
    simp only [finishRates]
    rw [hfe]
    rfl

/-- Witness for C6: a one-token batch whose compaction fits takes the
`setCompactData` branch. -/
theorem c6_single_transaction_witness :
    (∀ p ∈ pricesOf (fun _ _ => (100 : ℚ)) [1] [105] [103], p.base_changed = false) ∧
    set_rates (fun t => (.ok (⟨0, t⟩ : TokenIndex) : Except Unit TokenIndex))
        (fun t b => .ok ((fun _ _ => (100 : ℚ)) t b)) 9 [1] [105] [103] =
      .ok (.setCompactData
        (build_compact_price (pricesOf (fun _ _ => (100 : ℚ)) [1] [105] [103])
          (fun t => lookupTI ([1].zip ([1].map (fun t => (⟨0, t⟩ : TokenIndex)))) t)).1
        (build_compact_price (pricesOf (fun _ _ => (100 : ℚ)) [1] [105] [103])
          (fun t => lookupTI ([1].zip ([1].map (fun t => (⟨0, t⟩ : TokenIndex)))) t)).2.1
        9
        (build_compact_price (pricesOf (fun _ _ => (100 : ℚ)) [1] [105] [103])
          (fun t => lookupTI ([1].zip ([1].map (fun t => (⟨0, t⟩ : TokenIndex)))) t)).2.2) := by
  have hbp : build_price 1 105 103 100 100 =
      ⟨1, 100, 100, 50, 30, false⟩ := by
    have ha : get_compact_data 105 100 = ⟨100, 50⟩ := by
      rw [get_compact_data_eval 105 100 50 (by norm_num) (truncQ_congr (by norm_num))]
      norm_num
    have hb : get_compact_data 103 100 = ⟨100, 30⟩ := by
      rw [get_compact_data_eval 103 100 30 (by norm_num) (truncQ_congr (by norm_num))]
      norm_num
    simp [build_price, ha, hb]
  have hall : ∀ p ∈ pricesOf (fun _ _ => (100 : ℚ)) [1] [105] [103],
      p.base_changed = false := by
    intro p hp
    simp only [pricesOf, List.zip_cons_cons, List.zip_nil_right] at hp
    simp only [List.map_cons, List.map_nil, hbp] at hp
    rcases List.mem_cons.1 hp with h | h
    · rw [h]
    · exact absurd h (List.not_mem_nil p)
  exact ⟨hall,
    (c6_single_transaction (fun t => (⟨0, t⟩ : TokenIndex)) (fun _ _ => (100 : ℚ))
      9 [1] [105] [103]).2 hall⟩

/-- C7 counterexample: `set_rates` does not reject mismatched list lengths —
with two tokens but a single buy/sell rate it still performs the token-index
lookup for the second (dropped) token (a failing lookup there fails the whole
call), and with successful lookups it still builds and submits a transaction
covering only the first token. -/
theorem c7_counterexample :
    ([(1 : ℕ), 2].length ≠ [(105 : ℚ)].length) ∧
    set_rates (fun t => if t = 1 then .ok ⟨0, 1⟩ else (.error () : Except Unit TokenIndex))
        (fun _ _ => .ok 100) 9 [1, 2] [105] [103] = .error () ∧
    set_rates (fun t => (.ok (⟨0, t⟩ : TokenIndex) : Except Unit TokenIndex))
        (fun _ _ => .ok 100) 9 [1, 2] [105] [103] =
      .ok (.setCompactData [[0, 50, 0, 0, 0, 0, 0, 0, 0, 0, 0, 0, 0, 0]]
        [[0, 30, 0, 0, 0, 0, 0, 0, 0, 0, 0, 0, 0, 0]] 9 [0]) := by
  have hbp : build_price 1 105 103 100 100 =
      ⟨1, 100, 100, 50, 30, false⟩ := by
    have ha : get_compact_data 105 100 = ⟨100, 50⟩ := by
      rw [get_compact_data_eval 105 100 50 (by norm_num) (truncQ_congr (by norm_num))]
      norm_num
    have hb : get_compact_data 103 100 = ⟨100, 30⟩ := by
      rw [get_compact_data_eval 103 100 30 (by norm_num) (truncQ_congr (by norm_num))]
      norm_num
    simp [build_price, ha, hb]
  refine ⟨by decide, ?_, ?_⟩
  · rw [set_rates_eq]
    have hm : mapE (fun t => if t = 1 then .ok ⟨0, 1⟩ else (.error () : Except Unit TokenIndex))
        [1, 2] = .error () := rfl
    rw [hm]
  · rw [set_rates_eq]
    have hm1 : mapE (fun t => (.ok (⟨0, t⟩ : TokenIndex) : Except Unit TokenIndex)) [1, 2] =
        .ok [⟨0, 1⟩, ⟨0, 2⟩] := rfl
    have hm2 : mapE (readPrice (fun _ _ => (.ok 100 : Except Unit ℚ)))
        ([1, 2].zip ([105].zip [103])) = .ok [build_price 1 105 103 100 100] := rfl
    rw [hm1, hm2, hbp]
    rfl

/-- C7 (amended): `set_rates` performs no input validation. The three lists
are zipped, silently truncating to the minimum length; dropped tokens still
get index lookups; negative rates flow through. Given all token-index
lookups succeed, the call behaves exactly as if invoked on the three lists
truncated to the minimum length. -/
theorem c7_no_validation_amended {ε : Type} (tidx : ℕ → Except ε TokenIndex)
    (br : ℕ → Bool → Except ε ℚ) (blk : ℕ) (toks : List ℕ) (buys sells : List ℚ)
    (h : ∀ t ∈ toks, ∃ v, tidx t = .ok v) :
    set_rates tidx br blk toks buys sells =
      set_rates tidx br blk
        (toks.take (min toks.length (min buys.length sells.length)))
        (buys.take (min toks.length (min buys.length sells.length)))
        (sells.take (min toks.length (min buys.length sells.length))) := by
  have hzip := zip3_take toks buys sells
  obtain ⟨out, hout⟩ := mapE_exists_ok h
  have h' : ∀ t ∈ toks.take (min toks.length (min buys.length sells.length)),
      ∃ v, tidx t = .ok v := fun t ht => h t (List.take_subset _ _ ht)
  obtain ⟨out', hout'⟩ := mapE_exists_ok h'
  rw [set_rates_eq, set_rates_eq, hout, hout', ← hzip]
  show (match mapE (readPrice br) (toks.zip (buys.zip sells)) with
      | .error e => (.error e : Except ε Transaction)
      | .ok prices =>
        .ok (finishRates blk (fun t => lookupTI (toks.zip out) t) prices)) =
    (match mapE (readPrice br) (toks.zip (buys.zip sells)) with
      | .error e => .error e
      | .ok prices =>
        .ok (finishRates blk
          (fun t => lookupTI
            ((toks.take (min toks.length (min buys.length sells.length))).zip out') t)
          prices))
  cases hpr : mapE (readPrice br) (toks.zip (buys.zip sells)) with
  | error e => rfl
  | ok prices =>
    have hcong : build_compact_price prices (fun t => lookupTI (toks.zip out) t) =
        build_compact_price prices
          (fun t => lookupTI
            ((toks.take (min toks.length (min buys.length sells.length))).zip out') t) := by
      apply build_compact_price_congr
      intro p hp
      obtain ⟨q, hq, hfq⟩ := mapE_mem_of_ok hpr p hp
      have htok : p.token = q.1 := readPrice_ok_token br q p hfq
      obtain ⟨a, b⟩ := q
      have hq2 := hq
      rw [hzip] at hq2
      have h1 : a ∈ toks := (List.of_mem_zip hq).1
      have h2 : a ∈ toks.take (min toks.length (min buys.length sells.length)) :=
        (List.of_mem_zip hq2).1
      obtain ⟨w, hw⟩ := h a h1
      show lookupTI (toks.zip out) p.token =
        lookupTI
          ((toks.take (min toks.length (min buys.length sells.length))).zip out') p.token
      rw [htok]
      show lookupTI (toks.zip out) a =
        lookupTI ((toks.take (min toks.length (min buys.length sells.length))).zip out') a
      rw [lookupTI_zip tidx toks out hout a w h1 hw,
        lookupTI_zip tidx _ out' hout' a w h2 hw]
    have hfin : finishRates blk (fun t => lookupTI (toks.zip out) t) prices =
        finishRates blk
          (fun t => lookupTI
            ((toks.take (min toks.length (min buys.length sells.length))).zip out') t)
          prices := by
      simp only [finishRates]
      rw [hcong]
    exact congrArg Except.ok hfin

/-- Witness for C7 (amended): a concrete mismatched-length call equals its
truncated form. -/
theorem c7_no_validation_amended_witness :
    (∀ t ∈ [(1 : ℕ), 2], ∃ v,
      (fun t => (.ok (⟨0, t⟩ : TokenIndex) : Except Unit TokenIndex)) t = .ok v) ∧
    set_rates (fun t => (.ok (⟨0, t⟩ : TokenIndex) : Except Unit TokenIndex))
        (fun _ _ => .ok 100) 9 [1, 2] [105] [103] =
      set_rates (fun t => (.ok (⟨0, t⟩ : TokenIndex) : Except Unit TokenIndex))
        (fun _ _ => .ok 100) 9
        ([(1 : ℕ), 2].take (min [(1 : ℕ), 2].length
          (min [(105 : ℚ)].length [(103 : ℚ)].length)))
        ([(105 : ℚ)].take (min [(1 : ℕ), 2].length
          (min [(105 : ℚ)].length [(103 : ℚ)].length)))
        ([(103 : ℚ)].take (min [(1 : ℕ), 2].length
          (min [(105 : ℚ)].length [(103 : ℚ)].length))) :=
  ⟨fun t _ => ⟨⟨0, t⟩, rfl⟩,
    c7_no_validation_amended _ _ 9 [1, 2] [105] [103] (fun t _ => ⟨⟨0, t⟩, rfl⟩)⟩

/-- C8: if any token-index lookup or any base-rate read consumed by
`set_rates` fails, the whole call returns the error: no transaction value is
produced, so neither `setBaseRate` nor `setCompactData` is invoked. -/
theorem c8_abort_on_read_failure {ε : Type} (tidx : ℕ → Except ε TokenIndex)
    (br : ℕ → Bool → Except ε ℚ) (blk : ℕ) (toks : List ℕ) (buys sells : List ℚ)
    (h : (∃ t ∈ toks, ∃ e, tidx t = .error e) ∨
      (∃ q ∈ toks.zip (buys.zip sells),
        (∃ e, br q.1 true = .error e) ∨ (∃ e, br q.1 false = .error e))) :
    ∃ e, set_rates tidx br blk toks buys sells = .error e := by
  rw [set_rates_eq]
  cases h1 : mapE tidx toks with
  | error e => exact ⟨e, rfl⟩
  | ok idx_list =>
    cases h2 : mapE (readPrice br) (toks.zip (buys.zip sells)) with
    | error e => exact ⟨e, rfl⟩
    | ok prices =>
      exfalso
      rcases h with ⟨t, ht, e, he⟩ | ⟨q, hq, hbr⟩
      · obtain ⟨v, hv⟩ := mapE_ok_forall h1 t ht
        rw [he] at hv
        exact Except.noConfusion hv
      · obtain ⟨v, hv⟩ := mapE_ok_forall h2 q hq
        unfold readPrice at hv
        rcases hbr with ⟨e, he⟩ | ⟨e, he⟩
        · rw [he] at hv
          exact Except.noConfusion hv
        · cases hb1 : br q.1 true with
          | error e' =>
            rw [hb1] at hv
            exact Except.noConfusion hv
          | ok bb =>
            rw [hb1, he] at hv
            exact Except.noConfusion hv

/-- Witness for C8: a failing token-index lookup makes the call error. -/
theorem c8_abort_on_read_failure_witness :
    (∃ t ∈ [(1 : ℕ)], ∃ e,
      (fun _ : ℕ => (.error () : Except Unit TokenIndex)) t = .error e) ∧
    ∃ e, set_rates (fun _ : ℕ => (.error () : Except Unit TokenIndex))
      (fun _ _ => .ok 100) 3 [1] [100] [100] = .error e :=
  ⟨⟨1, List.mem_singleton.2 rfl, (), rfl⟩,
    c8_abort_on_read_failure _ _ 3 [1] [100] [100]
      (Or.inl ⟨1, List.mem_singleton.2 rfl, (), rfl⟩)⟩
